import Mathlib

/-!
Verification development for the Trinetra-GNN streaming graph anomaly-detection
engine.  The Python sources are shallowly embedded: machine floats that only
ever hold finite values in the verified facts are modelled as rationals, and
where IEEE non-finite values matter (the reconstruction scorer) a dedicated
float type with NaN and infinities is used.  Comparisons of a standard
deviation (a square root) against a bound are encoded sqrt-free on the
variance; each such encoding is justified in the accompanying doc comment and,
where a claim is about the standard deviation itself, the theorem statement
uses Real.sqrt so the encoding is verified rather than assumed.
-/

namespace Trinetra

/-! ## Statistics helpers (numpy mean and population variance)

npMean models np.mean over a list of rationals; npVar models the square of
np.std, i.e. the population variance sum((x-mean)^2)/n.  On the empty list
both return 0 (the embedding never evaluates them on empty input along the
code paths the claims are about, since those paths are guarded by length
checks). -/

def npMean (l : List ℚ) : ℚ := l.sum / l.length

def npVar (l : List ℚ) : ℚ := ((l.map (fun x => (x - npMean l) ^ 2)).sum) / l.length

/-! ## models/zscore_detector.py : ZScoreAnomalyDetector -/

/-- State of models/zscore_detector.py ZScoreAnomalyDetector: the configured
threshold, the deque capacity (window_size, default 100) and the deque
contents. -/
structure ZScoreAnomalyDetector where
  threshold : ℚ
  windowSize : ℕ
  window : List ℚ

/-- ZScoreAnomalyDetector.update: self.window.extend(scores) on a deque with
maxlen = windowSize keeps only the most recent windowSize entries. -/
def zscoreUpdate (d : ZScoreAnomalyDetector) (scores : List ℚ) : ZScoreAnomalyDetector :=
  let w := d.window ++ scores
  { d with window := w.drop (w.length - d.windowSize) }

/-- The second component returned by detect_anomalies: in the warm-up branch
the raw input scores are returned unchanged; in the ready branch the z-scores
are returned.  A z-score is |s - mean|/std, an irrational real in general, so
the ready branch carries the squared z-scores zsq with z = sqrt zsq, which is
an exact rational. -/
inductive ZScores where
  | raw (scores : List ℚ)
  | standardized (zsq : List ℚ)
deriving DecidableEq

/-- ZScoreAnomalyDetector.detect_anomalies.  Source:
if len(window) < 10: return zeros(len(scores), bool), scores;
mean, std of window; std = std if std > 0 else 1e-6;
z = |scores - mean|/std; anomalies = z > threshold.
Encoding: std > 0 iff var > 0; the 1e-6 fallback squares to 1e-12; the flag
z > thr is encoded as thr < 0 or thr^2 < z^2, which is equivalent since
z >= 0. -/
def detect_anomalies (d : ZScoreAnomalyDetector) (scores : List ℚ) : List Bool × ZScores :=
  if d.window.length < 10 then (scores.map (fun _ => false), ZScores.raw scores)
  else
    let m := npMean d.window
    let v := npVar d.window
    let vEff := if 0 < v then v else 1 / 1000000000000
    let zsq := scores.map (fun s => (s - m) ^ 2 / vEff)
    (zsq.map (fun z2 => decide (d.threshold < 0) || decide (d.threshold ^ 2 < z2)),
     ZScores.standardized zsq)

/-! ## backend/app.py and backend/anomaly_detector.py : adaptive threshold -/

/-- The common adaptive band selection on (mean m, variance v), shared by
app.calculate_adaptive_threshold and the adaptive branch of
adaptive_zscore_anomaly_detection.  Source bands on std = sqrt v:
std == 0 -> 2.0; std > mean*0.5 -> 1.8; std < mean*0.2 -> 2.5; else 2.0.
Sqrt-free encoding (justified for v >= 0, std = sqrt v):
std > m/2 iff m < 0 or m^2 < 4*v, and (when std <= m/2, hence m >= 0)
std < m/5 iff 25*v < m^2.  The equivalence with the sqrt form is proved in
theorem adaptiveBands_spec below. -/
def adaptiveBands (m v : ℚ) : ℚ :=
  if v = 0 then 2
  else if m < 0 then 9 / 5
  else if m ^ 2 < 4 * v then 9 / 5
  else if 25 * v < m ^ 2 then 5 / 2
  else 2

/-- backend/app.py calculate_adaptive_threshold: fewer than 3 scores -> 2.0,
otherwise band selection on (mean, std) of the scores. -/
def calculate_adaptive_threshold (riskScores : List ℚ) : ℚ :=
  if riskScores.length < 3 then 2
  else adaptiveBands (npMean riskScores) (npVar riskScores)

/-- backend/anomaly_detector.py adaptive_zscore_anomaly_detection.  Nodes are
modelled by their risk value.  Source: fewer than 3 risks -> ([], 2.0);
threshold = custom if truthy (a custom value of 0.0 is falsy in Python and
falls back to the adaptive bands), else adaptive bands; if std > 0, flag the
nodes with |risk - mean|/std > threshold, else flag nothing.  The flag is
encoded sqrt-free: |r-m|/std > thr iff thr < 0 or thr^2 * v < (r-m)^2. -/
def adaptive_zscore_anomaly_detection (risks : List ℚ) (customThreshold : Option ℚ) :
    List ℚ × ℚ :=
  if risks.length < 3 then ([], 2)
  else
    let m := npMean risks
    let v := npVar risks
    let thr := match customThreshold with
      | some c => if c = 0 then adaptiveBands m v else c
      | none => adaptiveBands m v
    (if v = 0 then []
     else risks.filter (fun r => decide (thr < 0) || decide (thr ^ 2 * v < (r - m) ^ 2)),
     thr)

/-! ## IEEE-style floats with non-finite values, for the reconstruction scorer

models/gnn_detector.py computes anomaly scores with torch operations on
float tensors; the claim C4 is about NaN/infinity propagation, so the
embedding uses an explicit float type.  Finite overflow is not modelled (a
finite rational stands for any representable finite float); NaN and the two
infinities follow IEEE propagation rules. -/

inductive Fl where
  | fin (q : ℚ)
  | nan
  | inf
  | ninf
deriving DecidableEq

def Fl.isFinite : Fl → Bool
  | Fl.fin _ => true
  | _ => false

def Fl.neg : Fl → Fl
  | Fl.fin q => Fl.fin (-q)
  | Fl.nan => Fl.nan
  | Fl.inf => Fl.ninf
  | Fl.ninf => Fl.inf

def Fl.add : Fl → Fl → Fl
  | Fl.nan, _ => Fl.nan
  | _, Fl.nan => Fl.nan
  | Fl.inf, Fl.ninf => Fl.nan
  | Fl.ninf, Fl.inf => Fl.nan
  | Fl.inf, _ => Fl.inf
  | _, Fl.inf => Fl.inf
  | Fl.ninf, _ => Fl.ninf
  | _, Fl.ninf => Fl.ninf
  | Fl.fin a, Fl.fin b => Fl.fin (a + b)

def Fl.sub (a b : Fl) : Fl := Fl.add a (Fl.neg b)

def Fl.mul : Fl → Fl → Fl
  | Fl.nan, _ => Fl.nan
  | _, Fl.nan => Fl.nan
  | Fl.fin a, Fl.fin b => Fl.fin (a * b)
  | Fl.inf, Fl.fin b => if b = 0 then Fl.nan else if 0 < b then Fl.inf else Fl.ninf
  | Fl.fin a, Fl.inf => if a = 0 then Fl.nan else if 0 < a then Fl.inf else Fl.ninf
  | Fl.ninf, Fl.fin b => if b = 0 then Fl.nan else if 0 < b then Fl.ninf else Fl.inf
  | Fl.fin a, Fl.ninf => if a = 0 then Fl.nan else if 0 < a then Fl.ninf else Fl.inf
  | Fl.inf, Fl.inf => Fl.inf
  | Fl.inf, Fl.ninf => Fl.ninf
  | Fl.ninf, Fl.inf => Fl.ninf
  | Fl.ninf, Fl.ninf => Fl.inf

/-- Division by an element count, as used by torch.mean: a mean over zero
elements is NaN (torch returns NaN for the mean of an empty slice), otherwise
the finite value is divided exactly and non-finite values keep their class. -/
def Fl.divN : Fl → ℕ → Fl
  | _, 0 => Fl.nan
  | Fl.fin q, n + 1 => Fl.fin (q / (n + 1))
  | Fl.nan, _ + 1 => Fl.nan
  | Fl.inf, _ + 1 => Fl.inf
  | Fl.ninf, _ + 1 => Fl.ninf

def sumFl (l : List Fl) : Fl := l.foldr Fl.add (Fl.fin 0)

/-! ## models/gnn_detector.py : compute_anomaly_scores, and
utils/batch_processor.py : BatchProcessor.process_graph -/

/-- One row of torch.mean((x - x_recon) ** 2, dim=1): the squared differences
along the feature dimension, summed and divided by the feature count. -/
def row_mse (xs ys : List Fl) : Fl :=
  Fl.divN (sumFl (List.zipWith (fun a b => Fl.mul (Fl.sub a b) (Fl.sub a b)) xs ys)) xs.length

/-- GNNAnomalyDetector.compute_anomaly_scores:
torch.mean((x - x_recon) ** 2, dim=1) — one mean-squared-error score per row
of x. -/
def compute_anomaly_scores (x xRecon : List (List Fl)) : List Fl :=
  List.zipWith row_mse x xRecon

/-- The batch start indices range(0, num_nodes, batch_size) of
BatchProcessor.process_graph, for a positive batch size. -/
def batchStarts (numNodes batchSize : ℕ) : List ℕ :=
  (List.range numNodes).filter (fun i => i % batchSize = 0)

/-- BatchProcessor._extract_subgraph: the source deliberately returns the full
feature matrix and edge index unchanged (docstring: simplified - using full
graph); the batch node list is ignored. -/
def extract_subgraph (x : List (List Fl)) (edgeIndex : List (ℕ × ℕ)) (_nodes : List ℕ) :
    List (List Fl) × List (ℕ × ℕ) :=
  (x, edgeIndex)

/-- The score vector produced by BatchProcessor.process_graph: for each batch
start b, batch_nodes = arange(b, min(b+B, n)), (batch_x, batch_e) =
_extract_subgraph(x, e, batch_nodes), x_recon = gnn_model(batch_x, batch_e),
batch_scores = compute_anomaly_scores(batch_x, x_recon); the batch score
vectors are concatenated with torch.cat.  The GNN model is abstracted as a
function from the feature matrix and edge index to the reconstruction
matrix. -/
def process_graph_scores (gnnModel : List (List Fl) → List (ℕ × ℕ) → List (List Fl))
    (x : List (List Fl)) (edgeIndex : List (ℕ × ℕ)) (numNodes batchSize : ℕ) : List Fl :=
  ((batchStarts numNodes batchSize).map (fun b =>
      let sub := extract_subgraph x edgeIndex (List.range' b (min (b + batchSize) numNodes - b))
      compute_anomaly_scores sub.1 (gnnModel sub.1 sub.2))).flatten

/-! ## utils/graph_analyzer.py : GraphAnalyzer -/

/-- The NetworkX view rebuilt by GraphAnalyzer.update_graph: node ids
range(num_nodes) plus an undirected edge list. -/
structure GraphView where
  numNodes : ℕ
  edges : List (ℕ × ℕ)

/-- Neighbours of u in an undirected edge list (both orientations of every
edge). -/
def nbrs : List (ℕ × ℕ) → ℕ → List ℕ
  | [], _ => []
  | e :: es, u =>
    (if e.1 = u then [e.2] else []) ++ (if e.2 = u then [e.1] else []) ++ nbrs es u

/-- Breadth-first search returning a shortest path, modelling
nx.shortest_path / nx.has_path.  Queue entries are reversed partial paths
(head = frontier node, last = source); a node is marked visited when
enqueued.  Fuel bounds the number of queue pops. -/
def bfsAux (adj : ℕ → List ℕ) (target : ℕ) : ℕ → List (List ℕ) → List ℕ → Option (List ℕ)
  | 0, _, _ => none
  | _ + 1, [], _ => none
  | fuel + 1, [] :: queue, visited => bfsAux adj target fuel queue visited
  | fuel + 1, (u :: p) :: queue, visited =>
    if u = target then some (u :: p).reverse
    else
      let fresh := (adj u).filter (fun v => decide (v ∉ visited))
      bfsAux adj target fuel (queue ++ fresh.map (fun v => v :: u :: p)) (visited ++ fresh)

/-- nx.shortest_path(G, s, t) as breadth-first search, with generous fuel; on
an unreachable or absent pair it returns none (the Python code reaches the
same outcome through nx.has_path / the exception handler). -/
def shortestPath (edges : List (ℕ × ℕ)) (numNodes s t : ℕ) : Option (List ℕ) :=
  bfsAux (nbrs edges) t (2 * edges.length + numNodes + 2) [[s]] [s]

/-- Invariant of a reversed partial path stored in the BFS queue: it ends (as
a reversed list) at the source s and consecutive entries are adjacent, each
node being a neighbour of the one it was appended onto. -/
def revOK (adj : ℕ → List ℕ) (s : ℕ) (q : List ℕ) : Prop :=
  q.getLast? = some s ∧ List.Chain' (fun a b => a ∈ adj b) q

/-- A vulnerable path record: dict with path, length = len(path), source,
target. -/
structure VPath where
  path : List ℕ
  length : ℕ
  source : ℕ
  target : ℕ
deriving DecidableEq

/-- The comparison key of paths.sort(key=lambda x: x.length). -/
def vpathLE (a b : VPath) : Prop := a.length ≤ b.length

instance : DecidableRel vpathLE := fun a b => inferInstanceAs (Decidable (a.length ≤ b.length))

instance : IsTotal VPath vpathLE := ⟨fun a b => Nat.le_total a.length b.length⟩

instance : IsTrans VPath vpathLE := ⟨fun _ _ _ hab hbc => Nat.le_trans hab hbc⟩

/-- The body of the inner loop of find_vulnerable_paths for one pair (n1, n2):
if a path exists take the shortest; keep it only when len(path) > 2. -/
def tryPath (G : GraphView) (n1 n2 : ℕ) : Option VPath :=
  match shortestPath G.edges G.numNodes n1 n2 with
  | none => none
  | some p => if 2 < p.length then some ⟨p, p.length, n1, n2⟩ else none

/-- The double loop of find_vulnerable_paths: for i, n1 in enumerate(lst),
for n2 in lst[i+1:]. -/
def pairPaths (G : GraphView) : List ℕ → List VPath
  | [] => []
  | n1 :: rest => rest.filterMap (tryPath G n1) ++ pairPaths G rest

/-- GraphAnalyzer.find_vulnerable_paths(anomalous_nodes, top_k): guard on
len(anomalous_nodes) < 2, slice anomalous_nodes[:top_k], collect the pair
paths, stable-sort ascending by length, return the first top_k. -/
def find_vulnerable_paths (G : GraphView) (anomalous : List ℕ) (topK : ℕ) : List VPath :=
  if anomalous.length < 2 then []
  else ((pairPaths G (anomalous.take topK)).insertionSort vpathLE).take topK

/-! ## backend/cve_scorer.py : rate_limit_check -/

/-- backend/cve_scorer.py rate_limit_check, as a step on the recorded
timestamp list.  The wall-clock time now at entry is an argument; the
returned pair is (new api_call_times, time at which the function returns).
Source: drop entries with now - t >= window; if limit entries remain, sleep
window - (now - oldest) + 0.1 seconds and reset the list; append now (the
pre-sleep timestamp) in every case. -/
def rate_limit_check (limit : ℕ) (window : ℚ) (times : List ℚ) (now : ℚ) : List ℚ × ℚ :=
  let filtered := times.filter (fun t => decide (now - t < window))
  if limit ≤ filtered.length then
    match filtered.min? with
    | none => (filtered ++ [now], now)
    | some oldest =>
      let wait := window - (now - oldest)
      if 0 < wait then ([now], now + wait + 1 / 10)
      else (filtered ++ [now], now)
  else (filtered ++ [now], now)

/-- A caller issuing k external calls back to back: each call passes through
rate_limit_check and the external request fires when the check returns; the
next check starts at that same instant.  Returns the list of actual call
times. -/
def runCalls (limit : ℕ) (window : ℚ) : ℕ → List ℚ → ℚ → List ℚ
  | 0, _, _ => []
  | k + 1, st, now =>
    let r := rate_limit_check limit window st now
    r.2 :: runCalls limit window k r.1 r.2

/-- The recorded-timestamp state after an arbitrary sequence of check entry
times, starting from the initial empty list. -/
def rateLimitStates (limit : ℕ) (window : ℚ) (nows : List ℚ) : List ℚ :=
  nows.foldl (fun st now => (rate_limit_check limit window st now).1) []

/-! ## core/cve_analyzer.py : CVEAnalyzer._search_cves_for_software -/

/-- One entry of CVEAnalyzer.cve_cache: key (productName, version), the
timestamp stored at caching time, and the cached CVE list (the CVE records
are abstracted by a type parameter). -/
structure CVECacheEntry (β : Type) where
  key : String × String
  timestamp : ℚ
  data : List β
deriving DecidableEq

/-- The fetch-and-store tail of _search_cves_for_software: an external NVD
query is issued (counted as one external call); on success the result is
cached under the key with the current timestamp, on an exception nothing is
cached and the empty list is returned. -/
def cveFetchStore {β : Type} (st : List (CVECacheEntry β)) (k : String × String) (now : ℚ)
    (fetched : Option (List β)) : List β × List (CVECacheEntry β) × ℕ :=
  match fetched with
  | none => ([], st, 1)
  | some res => (res, ⟨k, now, res⟩ :: st, 1)

/-- CVEAnalyzer._search_cves_for_software: on a cache entry younger than
cache_timeout return the cached data with no external call; otherwise fetch
(the abstract outcome of the rate-limited nvdlib query is the argument
fetched), cache on success and return.  The third component counts external
calls issued by this invocation. -/
def search_cves_for_software {β : Type} (cacheTimeout : ℚ) (st : List (CVECacheEntry β))
    (k : String × String) (now : ℚ) (fetched : Option (List β)) :
    List β × List (CVECacheEntry β) × ℕ :=
  match st.find? (fun e => decide (e.key = k)) with
  | some e =>
    if now - e.timestamp < cacheTimeout then (e.data, st, 0)
    else cveFetchStore st k now fetched
  | none => cveFetchStore st k now fetched

/-! ## core/agent.py : GNNAgent.run -/

/-- The outcome of one _monitor_cycle body (including the following sleep):
it returns normally, raises an internal exception, or is interrupted by
KeyboardInterrupt. -/
inductive CycleOutcome where
  | ok
  | err
  | interrupt
deriving DecidableEq

/-- What a finished run of GNNAgent.run did: how many cycles were entered,
whether the loop re-raised an exception, whether it ended through
KeyboardInterrupt, and whether the finally-block cleanup ran. -/
structure RunResult where
  cyclesStarted : ℕ
  raised : Bool
  stoppedByUser : Bool
  cleanedUp : Bool
deriving DecidableEq

/-- GNNAgent.run on a schedule of cycle outcomes (the schedule ending models
an external stop of the loop, e.g. is_running set to False).  Source: the
while loop awaits _monitor_cycle then sleeps; except KeyboardInterrupt: log,
is_running = False; except Exception: log, raise; finally: cleanup. -/
def runAgent : List CycleOutcome → RunResult
  | [] => ⟨0, false, false, true⟩
  | CycleOutcome.ok :: rest =>
    let r := runAgent rest
    ⟨r.cyclesStarted + 1, r.raised, r.stoppedByUser, true⟩
  | CycleOutcome.err :: _ => ⟨1, true, false, true⟩
  | CycleOutcome.interrupt :: _ => ⟨1, false, true, true⟩

/-! ## Helper lemmas -/

/-- The sum of a constant list. -/
theorem sum_const_list (m : ℚ) : ∀ l : List ℚ, (∀ x ∈ l, x = m) → l.sum = m * l.length := by
  intro l
  induction l with
  | nil => simp
  | cons a t ih =>
    intro h
    have ha : a = m := h a (by simp)
    have ht := ih (fun x hx => h x (by simp [hx]))
    simp [ha, ht]
    ring

/-- The numpy mean of a nonempty constant list is the constant. -/
theorem npMean_const (m : ℚ) (l : List ℚ) (h : ∀ x ∈ l, x = m) (hne : l ≠ []) :
    npMean l = m := by
  have hlen : (l.length : ℚ) ≠ 0 := by
    have h0 : l.length ≠ 0 := fun h0 => hne (List.eq_nil_of_length_eq_zero h0)
    exact_mod_cast h0
  rw [npMean, sum_const_list m l h]
  field_simp

/-- The population variance of a constant list is zero. -/
theorem npVar_const (m : ℚ) (l : List ℚ) (h : ∀ x ∈ l, x = m) : npVar l = 0 := by
  rcases eq_or_ne l [] with rfl | hne
  · simp [npVar]
  · have hmean := npMean_const m l h hne
    have : l.map (fun x => (x - npMean l) ^ 2) = l.map (fun _ => 0) := by
      apply List.map_congr_left
      intro x hx
      rw [h x hx, hmean]
      ring
    rw [npVar, this]
    simp

/-- The population variance is nonnegative. -/
theorem npVar_nonneg (l : List ℚ) : 0 ≤ npVar l := by
  rw [npVar]
  apply div_nonneg
  · apply List.sum_nonneg
    intro x hx
    obtain ⟨y, _, rfl⟩ := List.mem_map.1 hx
    positivity
  · positivity

/-! ## Claim C1 -/

/-- Claim C1: the score vector produced by BatchProcessor.process_graph is
claimed to have one entry per node for batch sizes that do and do not evenly
divide the node count.  The code evaluates to 66 scores for 33 nodes with
batch size 32 and to 128 scores for 64 nodes, because _extract_subgraph
returns the full feature matrix for every batch, so each of the
ceil(n/32) batches contributes n scores; only when the node count fits in a
single batch (16 nodes below) does the length equal the node count. -/
theorem C1_score_vector_length_bug :
    (process_graph_scores (fun m _ => m) (List.replicate 33 [Fl.fin 0]) [] 33 32).length = 66 ∧
    (process_graph_scores (fun m _ => m) (List.replicate 64 [Fl.fin 0]) [] 64 32).length = 128 ∧
    (process_graph_scores (fun m _ => m) (List.replicate 16 [Fl.fin 0]) [] 16 32).length = 16 := by
  refine ⟨?_, ?_, ?_⟩ <;> rfl

/-! ## Claim C2 -/

/-- Claim C2 counterexample: a schedule whose first monitoring cycle raises an
internal exception and whose second cycle would succeed.  GNNAgent.run logs
the exception and re-raises it: the run ends with raised = true after
starting only one cycle, so the loop did not continue with the next
iteration, contradicting the claim that an internal cycle failure never
terminates the loop. -/
theorem C2_cycle_failure_terminates_loop :
    runAgent [CycleOutcome.err, CycleOutcome.ok] =
      ⟨1, true, false, true⟩ ∧
    (runAgent [CycleOutcome.err, CycleOutcome.ok]).cyclesStarted < 2 := by
  exact ⟨rfl, by decide⟩

/-- Claim C2 amended: an exception raised inside a monitoring cycle is caught
by GNNAgent.run only to be logged and re-raised, so the first failing cycle
terminates the loop: after any prefix of successful cycles, a failure ends
the run with exactly prefix-length + 1 cycles started, the exception
re-raised, and the finally-block cleanup executed; the scheduled later
cycles never run. -/
theorem C2_amended_first_failure_ends_run (pre post : List CycleOutcome)
    (hpre : ∀ c ∈ pre, c = CycleOutcome.ok) :
    runAgent (pre ++ CycleOutcome.err :: post) = ⟨pre.length + 1, true, false, true⟩ := by
  induction pre with
  | nil => rfl
  | cons c t ih =>
    have hc : c = CycleOutcome.ok := hpre c (by simp)
    have ht := ih (fun x hx => hpre x (by simp [hx]))
    subst hc
    simp only [List.cons_append, runAgent, List.append_eq, ht, List.length_cons]

/-- Witness for the amended C2: one successful cycle, then a failing one, then
a scheduled cycle that never runs. -/
theorem C2_amended_witness :
    runAgent [CycleOutcome.ok, CycleOutcome.err, CycleOutcome.ok] = ⟨2, true, false, true⟩ := by
  have h := C2_amended_first_failure_ends_run [CycleOutcome.ok] [CycleOutcome.ok]
    (by intro c hc; simpa using hc)
  simpa using h

/-! ## Claim C5 -/

/-- Claim C5 counterexample: a detector whose window holds a single sample
(below the hard-coded minimum of 10).  detect_anomalies returns the all-false
mask together with the raw scores; no threshold of any kind, finite or
infinite, appears in the output, and the threshold attribute of the detector
keeps its configured value 3, so the claim that detect reports
threshold = +infinity in the warm-up state is false. -/
theorem C5_warmup_reports_no_infinite_threshold :
    detect_anomalies ⟨3, 100, [0]⟩ [5] = ([false], ZScores.raw [5]) ∧
    (⟨3, 100, [0]⟩ : ZScoreAnomalyDetector).threshold = 3 := by
  exact ⟨by decide, rfl⟩

/-- Claim C5 amended: whenever the score history holds fewer than 10 entries,
detect_anomalies returns an all-false anomaly mask (the empty anomaly set)
together with the raw scores in place of z-scores; no threshold value is
reported at all. -/
theorem C5_amended_warmup_empty (d : ZScoreAnomalyDetector) (scores : List ℚ)
    (h : d.window.length < 10) :
    detect_anomalies d scores = (scores.map (fun _ => false), ZScores.raw scores) := by
  rw [detect_anomalies, if_pos h]

/-- Witness for the amended C5 at a concrete warm-up detector. -/
theorem C5_amended_witness :
    detect_anomalies ⟨3, 100, [1, 2]⟩ [7, 8] = ([false, false], ZScores.raw [7, 8]) := by
  have h := C5_amended_warmup_empty ⟨3, 100, [1, 2]⟩ [7, 8] (by decide)
  simpa using h

/-! ## Claim C9 -/

/-- Claim C9: after a first lookup for a (productName, version) key that
actually went to the external authority (one external call issued, i.e. the
cache missed or was stale) and succeeded with result res, any second lookup
within cache_timeout of the first issues zero external calls and returns the
cached result res, leaving the cache unchanged, whatever the outcome of a
hypothetical second fetch would have been. -/
theorem C9_cache_hit_within_ttl {β : Type} (cacheTimeout : ℚ) (st : List (CVECacheEntry β))
    (k : String × String) (t0 t1 : ℚ) (res : List β) (fetched2 : Option (List β))
    (hfirst : (search_cves_for_software cacheTimeout st k t0 (some res)).2.2 = 1)
    (httl : t1 - t0 < cacheTimeout) :
    (search_cves_for_software cacheTimeout st k t0 (some res)).1 = res ∧
    search_cves_for_software cacheTimeout
        ((search_cves_for_software cacheTimeout st k t0 (some res)).2.1) k t1 fetched2
      = (res, (search_cves_for_software cacheTimeout st k t0 (some res)).2.1, 0) := by
  have hstore :
      (search_cves_for_software cacheTimeout st k t0 (some res)) =
        (res, ⟨k, t0, res⟩ :: st, 1) := by
    rw [search_cves_for_software] at hfirst ⊢
    rcases hfind : st.find? (fun e => decide (e.key = k)) with _ | e
    · simp only [hfind]
      rfl
    · simp only [hfind] at hfirst ⊢
      by_cases hage : t0 - e.timestamp < cacheTimeout
      · simp only [if_pos hage] at hfirst
        exact absurd hfirst (by decide)
      · simp only [if_neg hage]
        rfl
  refine ⟨by rw [hstore], ?_⟩
  rw [hstore]
  show search_cves_for_software cacheTimeout (⟨k, t0, res⟩ :: st) k t1 fetched2 = _
  have hfind2 : (⟨k, t0, res⟩ :: st).find? (fun e => decide (e.key = k)) =
      some ⟨k, t0, res⟩ := List.find?_cons_of_pos _ (by simp)
  rw [search_cves_for_software]
  simp only [hfind2, if_pos httl]

/-- Witness for C9: an empty cache, a successful first lookup at time 0, and a
second lookup one hour later against the default 24-hour TTL. -/
theorem C9_witness :
    (search_cves_for_software (86400 : ℚ) ([] : List (CVECacheEntry ℕ))
        ("Apache", "2.4.49") 0 (some [1])).1 = [1] ∧
    search_cves_for_software (86400 : ℚ)
        ((search_cves_for_software (86400 : ℚ) ([] : List (CVECacheEntry ℕ))
          ("Apache", "2.4.49") 0 (some [1])).2.1) ("Apache", "2.4.49") 3600 none
      = ([1],
         (search_cves_for_software (86400 : ℚ) ([] : List (CVECacheEntry ℕ))
           ("Apache", "2.4.49") 0 (some [1])).2.1, 0) :=
  C9_cache_hit_within_ttl 86400 [] ("Apache", "2.4.49") 0 3600 [1] none (by rfl)
    (by with_unfolding_all decide)

/-! ## Claim C6 -/

/-- Claim C6 counterexample: a window of ten equal samples has standard
deviation zero, yet detect_anomalies flags the score 5 as anomalous: the code
substitutes 1e-6 for the zero standard deviation instead of returning an
empty set, so a score differing from the common window value produces a huge
z-score and a non-empty anomaly set. -/
theorem C6_zero_std_counterexample :
    npVar (List.replicate 10 (0 : ℚ)) = 0 ∧
    (detect_anomalies ⟨3, 100, List.replicate 10 0⟩ [5]).1 = [true] := by
  constructor
  · with_unfolding_all decide
  · with_unfolding_all decide

/-- Claim C6 amended: with all window samples equal (standard deviation zero)
no division by zero occurs — the code substitutes 1e-6 — and every score
equal to the common window value gets z-score zero, so when the scores being
tested all equal that value (as they do in the pipeline, where update pushes
them into the window first) the anomaly set is empty; a score differing from
the common value is flagged instead (see the counterexample). -/
theorem C6_amended_zero_std (thr : ℚ) (ws : ℕ) (window scores : List ℚ) (m : ℚ)
    (hlen : 10 ≤ window.length) (hwin : ∀ x ∈ window, x = m) (hsc : ∀ s ∈ scores, s = m)
    (hthr : 0 ≤ thr) :
    npVar window = 0 ∧
    (detect_anomalies ⟨thr, ws, window⟩ scores).1 = scores.map (fun _ => false) := by
  have hvar : npVar window = 0 := npVar_const m window hwin
  have hne : window ≠ [] := by
    intro h
    rw [h] at hlen
    simp at hlen
  have hmean : npMean window = m := npMean_const m window hwin hne
  refine ⟨hvar, ?_⟩
  rw [detect_anomalies, if_neg (by simp only; omega)]
  simp only [hmean, hvar, lt_self_iff_false, if_false, List.map_map]
  apply List.map_congr_left
  intro s hs
  rw [hsc s hs]
  simp only [Function.comp_apply, sub_self, ne_eq, OfNat.ofNat_ne_zero, not_false_eq_true,
    zero_pow, zero_div]
  rw [decide_eq_false (not_lt.2 hthr), decide_eq_false (not_lt.2 (sq_nonneg thr))]
  rfl

/-- Witness for the amended C6 at a constant window of value 2 and scores
equal to that value. -/
theorem C6_amended_witness :
    npVar (List.replicate 10 (2 : ℚ)) = 0 ∧
    (detect_anomalies ⟨3, 100, List.replicate 10 (2 : ℚ)⟩ [2, 2]).1 = [false, false] := by
  have h := C6_amended_zero_std 3 100 (List.replicate 10 2) [2, 2] 2 (by decide)
    (by decide) (by decide) (by with_unfolding_all decide)
  simpa using h

/-! ## Claim C7 -/

/-- The sqrt-free band encoding of adaptiveBands agrees with the source
comparisons on the standard deviation: for variance v ≥ 0 and
std = Real.sqrt v, the band is 2.0 when v = 0 (std = 0), else 1.8 when
std > mean/2, else 2.5 when std < mean/5, else 2.0.  This verifies the
encoding used in the executable definition. -/
theorem adaptiveBands_spec (m v : ℚ) (hv : 0 ≤ v) :
    (v = 0 → adaptiveBands m v = 2) ∧
    (v ≠ 0 →
      (((m : ℝ) / 2 < Real.sqrt (v : ℝ) → adaptiveBands m v = 9 / 5) ∧
       (¬ (m : ℝ) / 2 < Real.sqrt (v : ℝ) → Real.sqrt (v : ℝ) < (m : ℝ) / 5 →
          adaptiveBands m v = 5 / 2) ∧
       (¬ (m : ℝ) / 2 < Real.sqrt (v : ℝ) → ¬ Real.sqrt (v : ℝ) < (m : ℝ) / 5 →
          adaptiveBands m v = 2))) := by
  constructor
  · intro h
    rw [adaptiveBands, if_pos h]
  · intro hv0
    have hvpos : (0 : ℚ) < v := lt_of_le_of_ne hv (Ne.symm hv0)
    have hvposR : (0 : ℝ) < (v : ℝ) := by exact_mod_cast hvpos
    have hsq : (0 : ℝ) < Real.sqrt (v : ℝ) := Real.sqrt_pos.2 hvposR
    by_cases hm : m < 0
    · have hmR : ((m : ℝ) / 2) < 0 := by
        have : (m : ℝ) < 0 := by exact_mod_cast hm
        linarith
      have hband : adaptiveBands m v = 9 / 5 := by
        rw [adaptiveBands, if_neg hv0, if_pos hm]
      refine ⟨fun _ => hband, fun hc => absurd (lt_trans hmR hsq) hc, fun hc => absurd
        (lt_trans hmR hsq) hc⟩
    · have hm0 : (0 : ℚ) ≤ m := not_lt.1 hm
      have hm0R : (0 : ℝ) ≤ (m : ℝ) / 2 := by
        have : (0 : ℝ) ≤ (m : ℝ) := by exact_mod_cast hm0
        linarith
      have h1 : ((m : ℝ) / 2 < Real.sqrt (v : ℝ)) ↔ m ^ 2 < 4 * v := by
        rw [Real.lt_sqrt hm0R]
        rw [show ((m : ℝ) / 2) ^ 2 = (m : ℝ) ^ 2 / 4 by ring]
        rw [div_lt_iff₀ (by norm_num : (0 : ℝ) < 4)]
        constructor
        · intro h
          have h4 : (m : ℝ) ^ 2 < 4 * (v : ℝ) := by linarith
          exact_mod_cast h4
        · intro h
          have h4 : (m : ℝ) ^ 2 < 4 * (v : ℝ) := by exact_mod_cast h
          linarith
      have h2 : (Real.sqrt (v : ℝ) < (m : ℝ) / 5) ↔ 25 * v < m ^ 2 := by
        rcases eq_or_lt_of_le hm0 with hmz | hmpos
        · constructor
          · intro h
            exfalso
            rw [← hmz] at h
            norm_num at h
            linarith
          · intro h
            exfalso
            rw [← hmz] at h
            nlinarith
        · have hmposR : (0 : ℝ) < (m : ℝ) / 5 := by
            have : (0 : ℝ) < (m : ℝ) := by exact_mod_cast hmpos
            linarith
          rw [Real.sqrt_lt' hmposR]
          rw [show ((m : ℝ) / 5) ^ 2 = (m : ℝ) ^ 2 / 25 by ring]
          rw [lt_div_iff₀ (by norm_num : (0 : ℝ) < 25)]
          constructor
          · intro h
            have h25 : 25 * (v : ℝ) < (m : ℝ) ^ 2 := by linarith
            exact_mod_cast h25
          · intro h
            have h25 : 25 * (v : ℝ) < (m : ℝ) ^ 2 := by exact_mod_cast h
            linarith
      refine ⟨?_, ?_, ?_⟩
      · intro h
        rw [adaptiveBands, if_neg hv0, if_neg hm, if_pos (h1.1 h)]
      · intro hA hB
        rw [adaptiveBands, if_neg hv0, if_neg hm, if_neg (fun hc => hA (h1.2 hc)),
          if_pos (h2.1 hB)]
      · intro hA hB
        rw [adaptiveBands, if_neg hv0, if_neg hm, if_neg (fun hc => hA (h1.2 hc)),
          if_neg (fun hc => hB (h2.2 hc))]

/-- Claim C7 counterexample.  First block: [1, 1, 1] has std 0 and mean 1, so
the claim band std < 0.2·mean applies and demands threshold 2.5, but the code
returns 2.0 (the std == 0 early return).  Second block: [0, 10] and
[0, 0, 10, 10] have identical mean 5 and identical std 5, yet the thresholds
differ (2.0 because of the fewer-than-3 guard versus 1.8), so the selection
is not a pure function of (mean, std). -/
theorem C7_threshold_band_counterexample :
    (calculate_adaptive_threshold [1, 1, 1] = 2 ∧
      npVar [1, 1, 1] = 0 ∧ npMean [1, 1, 1] = 1) ∧
    (npMean [0, 10] = npMean [0, 0, 10, 10] ∧ npVar [0, 10] = npVar [0, 0, 10, 10] ∧
      calculate_adaptive_threshold [0, 10] = 2 ∧
      calculate_adaptive_threshold [0, 0, 10, 10] = 9 / 5) := by
  with_unfolding_all decide

/-- Claim C7 amended: with at least 3 scores the adaptive threshold is a pure
function of the (mean, variance) — hence (mean, std) — of the current
scores, and writing std for the square root of the population variance, the
bands follow the source order of checks: std = 0 gives 2.0 (not the 2.5 the
claim assigns when 0 < 0.2·mean), std > 0.5·mean gives 1.8, std < 0.2·mean
with std > 0 gives 2.5, anything else 2.0.  With fewer than 3 scores the
threshold is 2.0 regardless of the statistics. -/
theorem C7_amended_threshold_bands (risks : List ℚ) (h3 : 3 ≤ risks.length) :
    (∀ r2 : List ℚ, 3 ≤ r2.length → npMean risks = npMean r2 → npVar risks = npVar r2 →
      calculate_adaptive_threshold risks = calculate_adaptive_threshold r2) ∧
    (npVar risks = 0 → calculate_adaptive_threshold risks = 2) ∧
    (npVar risks ≠ 0 →
      (((npMean risks : ℝ) / 2 < Real.sqrt ((npVar risks : ℚ) : ℝ) →
          calculate_adaptive_threshold risks = 9 / 5) ∧
       (¬ (npMean risks : ℝ) / 2 < Real.sqrt ((npVar risks : ℚ) : ℝ) →
          Real.sqrt ((npVar risks : ℚ) : ℝ) < (npMean risks : ℝ) / 5 →
          calculate_adaptive_threshold risks = 5 / 2) ∧
       (¬ (npMean risks : ℝ) / 2 < Real.sqrt ((npVar risks : ℚ) : ℝ) →
          ¬ Real.sqrt ((npVar risks : ℚ) : ℝ) < (npMean risks : ℝ) / 5 →
          calculate_adaptive_threshold risks = 2))) := by
  have hdef : calculate_adaptive_threshold risks =
      adaptiveBands (npMean risks) (npVar risks) := by
    rw [calculate_adaptive_threshold, if_neg (by omega)]
  have hspec := adaptiveBands_spec (npMean risks) (npVar risks) (npVar_nonneg risks)
  refine ⟨?_, ?_, ?_⟩
  · intro r2 h3b hmean hvar
    have hdef2 : calculate_adaptive_threshold r2 =
        adaptiveBands (npMean r2) (npVar r2) := by
      rw [calculate_adaptive_threshold, if_neg (by omega)]
    rw [hdef, hdef2, hmean, hvar]
  · intro h0
    rw [hdef]
    exact hspec.1 h0
  · intro hne
    have h := hspec.2 hne
    exact ⟨fun hc => by rw [hdef]; exact h.1 hc,
      fun hA hB => by rw [hdef]; exact h.2.1 hA hB,
      fun hA hB => by rw [hdef]; exact h.2.2 hA hB⟩

/-- Witness for the amended C7: [0, 0, 10, 10] and its reversal share
statistics and threshold, and its std 5 exceeds half its mean 5/2, selecting
band 1.8. -/
theorem C7_amended_witness :
    calculate_adaptive_threshold [0, 0, 10, 10] = calculate_adaptive_threshold [10, 10, 0, 0] ∧
    calculate_adaptive_threshold [0, 0, 10, 10] = 9 / 5 := by
  have h := C7_amended_threshold_bands [0, 0, 10, 10] (by decide)
  refine ⟨h.1 [10, 10, 0, 0] (by decide) (by with_unfolding_all decide)
    (by with_unfolding_all decide), ?_⟩
  have hv : npVar ([0, 0, 10, 10] : List ℚ) ≠ 0 := by with_unfolding_all decide
  have hm : npMean ([0, 0, 10, 10] : List ℚ) = 5 := by with_unfolding_all decide
  have hvv : npVar ([0, 0, 10, 10] : List ℚ) = 25 := by with_unfolding_all decide
  have hsqrt : Real.sqrt ((npVar ([0, 0, 10, 10] : List ℚ) : ℚ) : ℝ) = 5 := by
    rw [hvv, show (((25 : ℚ) : ℝ)) = 5 ^ 2 by norm_num]
    exact Real.sqrt_sq (by norm_num)
  exact (h.2.2 hv).1 (by rw [hsqrt, hm]; norm_num)

/-! ## Claim C4 -/

/-- Subtracting NaN yields NaN. -/
theorem Fl.sub_nan (a : Fl) : Fl.sub a Fl.nan = Fl.nan := by
  cases a <;> rfl

/-- Multiplying NaN on the left yields NaN. -/
theorem Fl.mul_nan_left (b : Fl) : Fl.mul Fl.nan b = Fl.nan := by
  cases b <;> rfl

/-- Adding NaN on the right yields NaN. -/
theorem Fl.add_nan_right (a : Fl) : Fl.add a Fl.nan = Fl.nan := by
  cases a <;> rfl

/-- A sum over a list containing NaN is NaN. -/
theorem sumFl_nan : ∀ l : List Fl, Fl.nan ∈ l → sumFl l = Fl.nan := by
  intro l
  induction l with
  | nil => intro h; exact absurd h (List.not_mem_nil _)
  | cons a t ih =>
    intro h
    rcases List.mem_cons.1 h with rfl | ht
    · show Fl.add Fl.nan (sumFl t) = Fl.nan
      cases sumFl t <;> rfl
    · show Fl.add a (sumFl t) = Fl.nan
      rw [ih ht]
      exact Fl.add_nan_right a

/-- Dividing NaN by any count yields NaN. -/
theorem Fl.divN_nan (n : ℕ) : Fl.divN Fl.nan n = Fl.nan := by
  cases n <;> rfl

/-- If the reconstruction row contains NaN (within the feature range), the
squared-difference row contains NaN. -/
theorem zip_sq_nan : ∀ (xs ys : List Fl), Fl.nan ∈ ys → ys.length ≤ xs.length →
    Fl.nan ∈ List.zipWith (fun a b => Fl.mul (Fl.sub a b) (Fl.sub a b)) xs ys := by
  intro xs ys
  induction ys generalizing xs with
  | nil => intro h; exact absurd h (List.not_mem_nil _)
  | cons b t ih =>
    intro h hlen
    cases xs with
    | nil => simp at hlen
    | cons a xt =>
      rcases List.mem_cons.1 h with rfl | ht
      · rw [List.zipWith_cons_cons, Fl.sub_nan, Fl.mul_nan_left]
        exact List.mem_cons_self _ _
      · exact List.mem_cons_of_mem _ (ih xt ht (by simpa using hlen))

/-- A NaN anywhere in the reconstruction row makes the whole row mean NaN. -/
theorem row_mse_nan (xs ys : List Fl) (hlen : ys.length = xs.length) (h : Fl.nan ∈ ys) :
    row_mse xs ys = Fl.nan := by
  rw [row_mse, sumFl_nan _ (zip_sq_nan xs ys h (le_of_eq hlen)), Fl.divN_nan]

/-- Indexing a zipWith at a position present in both lists. -/
theorem getElem?_zipWith_of_some {α β γ : Type} (f : α → β → γ) :
    ∀ (as : List α) (bs : List β) (i : ℕ) (a : α) (b : β), as[i]? = some a →
      bs[i]? = some b → (List.zipWith f as bs)[i]? = some (f a b) := by
  intro as
  induction as with
  | nil => intro bs i a b ha; simp at ha
  | cons a0 at' ih =>
    intro bs i a b ha hb
    cases bs with
    | nil => simp at hb
    | cons b0 bt =>
      cases i with
      | zero =>
        rw [List.getElem?_cons_zero] at ha hb
        rw [List.zipWith_cons_cons, List.getElem?_cons_zero]
        rw [Option.some_inj] at ha hb
        rw [ha, hb]
      | succ j =>
        rw [List.getElem?_cons_succ] at ha hb
        rw [List.zipWith_cons_cons, List.getElem?_cons_succ]
        exact ih bt j a b ha hb

/-- Claim C4 counterexample: a reconstruction containing NaN for the single
node produces the anomaly score NaN — a non-finite value handed onward, with
no clamping to a finite sentinel anywhere in compute_anomaly_scores or
process_graph. -/
theorem C4_no_clamping_counterexample :
    compute_anomaly_scores [[Fl.fin 0]] [[Fl.nan]] = [Fl.nan] ∧
    Fl.nan.isFinite = false := by
  exact ⟨by decide, rfl⟩

/-- Claim C4 amended: a non-finite (NaN) value in the reconstruction row of
any node propagates into that node's anomaly score unchanged — the score is
NaN, which is not finite; no clamping to a finite sentinel takes place. -/
theorem C4_amended_nonfinite_propagates (x xRecon : List (List Fl)) (i : ℕ)
    (rowx rowr : List Fl) (hx : x[i]? = some rowx) (hr : xRecon[i]? = some rowr)
    (hlen : rowr.length = rowx.length) (hnan : Fl.nan ∈ rowr) :
    (compute_anomaly_scores x xRecon)[i]? = some Fl.nan ∧ Fl.nan.isFinite = false := by
  constructor
  · rw [compute_anomaly_scores, getElem?_zipWith_of_some row_mse x xRecon i rowx rowr hx hr,
      row_mse_nan rowx rowr hlen hnan]
  · rfl

/-- Witness for the amended C4 at a one-node, one-feature snapshot. -/
theorem C4_amended_witness :
    (compute_anomaly_scores [[Fl.fin 1]] [[Fl.nan]])[0]? = some Fl.nan ∧
    Fl.nan.isFinite = false :=
  C4_amended_nonfinite_propagates [[Fl.fin 1]] [[Fl.nan]] 0 [Fl.fin 1] [Fl.nan] rfl rfl rfl
    (by decide)

/-! ## Claim C3 -/

/-- Claim C3 counterexample: eleven back-to-back calls through
rate_limit_check with the default unauthenticated limit of 5 per 30 seconds.
The first five fire at time 0; the sixth blocks until 30.1 — but the limiter
then clears its history and records the stale pre-sleep timestamp 0, so
calls seven through eleven are admitted immediately.  Six external calls
fire at time 30.1, all inside the sliding 30-second window [30, 60): more
than the limit of 5. -/
theorem C3_sliding_window_counterexample :
    ((runCalls 5 30 11 [] 0).filter (fun t => decide (30 ≤ t) && decide (t < 60))).length = 6 ∧
    runCalls 5 30 11 [] 0 =
      [0, 0, 0, 0, 0, 301 / 10, 301 / 10, 301 / 10, 301 / 10, 301 / 10, 301 / 10] := by
  constructor
  · with_unfolding_all decide
  · with_unfolding_all decide

/-- In rate_limit_check, whenever the retained window has a minimum, the
computed wait is positive, because every retained timestamp is strictly
within the window. -/
theorem rate_limit_wait_pos (window : ℚ) (times : List ℚ) (now oldest : ℚ)
    (hmin : (times.filter (fun t => decide (now - t < window))).min? = some oldest) :
    0 < window - (now - oldest) := by
  have hmem : oldest ∈ times.filter (fun t => decide (now - t < window)) :=
    List.min?_mem min_choice hmin
  have hlt : now - oldest < window := by simpa using (List.mem_filter.1 hmem).2
  linarith

/-- After any single rate_limit_check step the recorded list holds at most
limit timestamps. -/
theorem rate_limit_check_state_le (limit : ℕ) (hlim : 1 ≤ limit) (window : ℚ)
    (times : List ℚ) (now : ℚ) :
    ((rate_limit_check limit window times now).1).length ≤ limit := by
  simp only [rate_limit_check]
  split
  next hfull =>
    split
    next hmin =>
      have hemp : times.filter (fun t => decide (now - t < window)) = [] :=
        List.min?_eq_none_iff.1 hmin
      rw [hemp]
      simpa using hlim
    next oldest hmin =>
      split
      next hpos => simpa using hlim
      next hpos => exact absurd (rate_limit_wait_pos window times now oldest hmin) hpos
  next hfull =>
    simp only [List.length_append, List.length_singleton]
    omega

/-- The recorded-timestamp list reachable from the empty initial state never
exceeds limit entries. -/
theorem rateLimitStates_le (limit : ℕ) (hlim : 1 ≤ limit) (window : ℚ) (nows : List ℚ) :
    (rateLimitStates limit window nows).length ≤ limit := by
  rw [rateLimitStates]
  have h : ∀ (ns : List ℚ) (init : List ℚ), init.length ≤ limit →
      (ns.foldl (fun st now => (rate_limit_check limit window st now).1) init).length ≤
        limit := by
    intro ns
    induction ns with
    | nil =>
      intro init hinit
      simpa using hinit
    | cons n t ih =>
      intro init hinit
      rw [List.foldl_cons]
      exact ih _ (rate_limit_check_state_le limit hlim window init n)
  exact h nows [] (by simp)

/-- When rate_limit_check admits a call without sleeping (it returns at the
entry time), fewer than limit recorded calls lie within the preceding
window. -/
theorem rate_limit_no_sleep_bound (limit : ℕ) (hlim : 1 ≤ limit) (window : ℚ)
    (times : List ℚ) (now : ℚ)
    (hret : (rate_limit_check limit window times now).2 = now) :
    (times.filter (fun t => decide (now - t < window))).length < limit := by
  by_contra hge
  have hfull : limit ≤ (times.filter (fun t => decide (now - t < window))).length :=
    not_lt.1 hge
  rcases hmin : (times.filter (fun t => decide (now - t < window))).min? with _ | oldest
  · have hemp : times.filter (fun t => decide (now - t < window)) = [] :=
      List.min?_eq_none_iff.1 hmin
    rw [hemp] at hfull
    simp at hfull
    omega
  · have hpos := rate_limit_wait_pos window times now oldest hmin
    have hval : (rate_limit_check limit window times now).2 =
        now + (window - (now - oldest)) + 1 / 10 := by
      simp only [rate_limit_check, if_pos hfull, hmin, if_pos hpos]
    rw [hval] at hret
    have h0 : window - (now - oldest) + 1 / 10 = 0 := by linarith
    linarith

/-- Claim C3 amended: the limiter keeps its RECORDED sliding window bounded —
starting from the empty state the api_call_times list never holds more than
limit entries, and a call admitted without blocking sees fewer than limit
recorded timestamps inside the preceding 30-second window.  The bound does
not extend to ACTUAL calls across a block-and-wake: after sleeping, the
limiter clears its history and records the stale pre-sleep timestamp, so
limit + 1 actual calls can fire inside one sliding window (see the
counterexample). -/
theorem C3_amended_recorded_window_bound (limit : ℕ) (window : ℚ) (hlim : 1 ≤ limit) :
    (∀ nows : List ℚ, (rateLimitStates limit window nows).length ≤ limit) ∧
    (∀ times : List ℚ, ∀ now : ℚ, (rate_limit_check limit window times now).2 = now →
      (times.filter (fun t => decide (now - t < window))).length < limit) :=
  ⟨fun nows => rateLimitStates_le limit hlim window nows,
   fun times now hret => rate_limit_no_sleep_bound limit hlim window times now hret⟩

/-- Witness for the amended C3 with the default limit 5 per 30 seconds. -/
theorem C3_amended_witness :
    (rateLimitStates 5 30 [0, 0, 0, 0, 0, 0]).length ≤ 5 ∧
    (([(0 : ℚ)].filter (fun t => decide ((1 : ℚ) - t < 30))).length < 5) := by
  have h := C3_amended_recorded_window_bound 5 30 (by decide)
  exact ⟨h.1 [0, 0, 0, 0, 0, 0], h.2 [0] 1 (by with_unfolding_all decide)⟩

/-! ## Breadth-first-search lemmas for claims C8 and C10 -/

/-- Soundness of the BFS: when every queue entry is a valid reversed partial
path from s, a returned path starts at s, ends at the target and follows
edges of the adjacency function. -/
theorem bfsAux_sound (adj : ℕ → List ℕ) (s target : ℕ) :
    ∀ (fuel : ℕ) (queue : List (List ℕ)) (visited : List ℕ) (r : List ℕ),
      (∀ q ∈ queue, revOK adj s q) →
      bfsAux adj target fuel queue visited = some r →
      r.head? = some s ∧ r.getLast? = some target ∧
        List.Chain' (fun a b => b ∈ adj a) r := by
  intro fuel
  induction fuel with
  | zero =>
    intro queue visited r _ h
    exact Option.noConfusion h
  | succ f ih =>
    intro queue visited r hq hrun
    cases queue with
    | nil => exact Option.noConfusion hrun
    | cons q0 rest =>
      cases q0 with
      | nil =>
        have hbad := (hq [] (List.mem_cons_self _ _)).1
        simp at hbad
      | cons u p =>
        simp only [bfsAux] at hrun
        by_cases hu : u = target
        · rw [if_pos hu] at hrun
          have hr : r = (u :: p).reverse := (Option.some_inj.1 hrun).symm
          obtain ⟨hlast, hchain⟩ := hq (u :: p) (List.mem_cons_self _ _)
          subst hr
          refine ⟨?_, ?_, ?_⟩
          · rw [List.head?_reverse]
            exact hlast
          · rw [List.getLast?_reverse]
            simp [hu]
          · rw [List.chain'_reverse]
            exact hchain
        · rw [if_neg hu] at hrun
          apply ih _ _ r _ hrun
          intro q hqmem
          rcases List.mem_append.1 hqmem with hold | hnew
          · exact hq q (List.mem_cons_of_mem _ hold)
          · obtain ⟨v, hv, rfl⟩ := List.mem_map.1 hnew
            obtain ⟨hlast, hchain⟩ := hq (u :: p) (List.mem_cons_self _ _)
            have hvadj : v ∈ adj u := (List.mem_filter.1 hv).1
            exact ⟨by rw [List.getLast?_cons_cons]; exact hlast,
              List.chain'_cons.2 ⟨hvadj, hchain⟩⟩

/-- First-hit behaviour of the BFS queue: entries whose head is not the
target are popped (their children are appended behind), so the first entry
headed by the target is returned, reversed. -/
theorem bfsAux_firstHit (adj : ℕ → List ℕ) (target : ℕ) :
    ∀ (A : List (List ℕ)) (fuel : ℕ) (p : List ℕ) (B : List (List ℕ)) (visited : List ℕ),
      (∀ q ∈ A, q.head? ≠ some target) → p.head? = some target → A.length < fuel →
      bfsAux adj target fuel (A ++ p :: B) visited = some p.reverse := by
  intro A
  induction A with
  | nil =>
    intro fuel p B visited _ hp hfuel
    cases fuel with
    | zero => omega
    | succ f =>
      cases p with
      | nil => simp at hp
      | cons u p2 =>
        have hu : u = target := by simpa using hp
        subst hu
        simp [bfsAux]
  | cons a A2 ih =>
    intro fuel p B visited hA hp hfuel
    cases fuel with
    | zero => omega
    | succ f =>
      have hfl : A2.length < f := by
        simp only [List.length_cons] at hfuel
        omega
      cases a with
      | nil =>
        rw [List.cons_append]
        simp only [bfsAux]
        exact ih f p B visited (fun q hq => hA q (List.mem_cons_of_mem _ hq)) hp hfl
      | cons u q2 =>
        have hu : u ≠ target := by
          have := hA (u :: q2) (List.mem_cons_self _ _)
          simpa using this
        rw [List.cons_append]
        simp only [bfsAux, if_neg hu]
        rw [List.append_assoc, List.cons_append]
        exact ih f p _ _ (fun q hq => hA q (List.mem_cons_of_mem _ hq)) hp hfl

/-- Splitting a list at the first occurrence of an element. -/
theorem exists_first_split {α : Type} [DecidableEq α] {a : α} :
    ∀ {l : List α}, a ∈ l → ∃ l1 l2, l = l1 ++ a :: l2 ∧ a ∉ l1 := by
  intro l
  induction l with
  | nil =>
    intro h
    exact absurd h (List.not_mem_nil _)
  | cons b t ih =>
    intro h
    by_cases hab : a = b
    · subst hab
      exact ⟨[], t, rfl, List.not_mem_nil _⟩
    · have ht : a ∈ t := by
        rcases List.mem_cons.1 h with h1 | h1
        · exact absurd h1 hab
        · exact h1
      obtain ⟨l1, l2, rfl, hnot⟩ := ih ht
      exact ⟨b :: l1, l2, rfl, by simp [hab, hnot]⟩

/-- Each edge contributes at most two adjacency entries. -/
theorem nbrs_length_le (edges : List (ℕ × ℕ)) (u : ℕ) :
    (nbrs edges u).length ≤ 2 * edges.length := by
  induction edges with
  | nil => simp [nbrs]
  | cons e es ih =>
    rw [nbrs]
    simp only [List.length_append, List.length_cons]
    have h1 : (if e.1 = u then [e.2] else []).length ≤ 1 := by split <;> simp
    have h2 : (if e.2 = u then [e.1] else []).length ≤ 1 := by split <;> simp
    omega

/-- nx.shortest_path from a node to itself is the single-node path (length
1), which find_vulnerable_paths discards. -/
theorem shortestPath_self (edges : List (ℕ × ℕ)) (n s : ℕ) :
    shortestPath edges n s s = some [s] := by
  rw [shortestPath]
  rw [show 2 * edges.length + n + 2 = (2 * edges.length + n + 1) + 1 from rfl]
  simp [bfsAux]

/-- For adjacent distinct nodes the BFS returns the direct two-node path,
which find_vulnerable_paths discards. -/
theorem shortestPath_adjacent (edges : List (ℕ × ℕ)) (n s t : ℕ) (hst : s ≠ t)
    (ht : t ∈ nbrs edges s) :
    shortestPath edges n s t = some [s, t] := by
  rw [shortestPath]
  rw [show 2 * edges.length + n + 2 = (2 * edges.length + n + 1) + 1 from rfl]
  have hts : t ≠ s := Ne.symm hst
  simp only [bfsAux, if_neg hst, List.nil_append]
  have htf : t ∈ (nbrs edges s).filter (fun v => decide (v ∉ [s])) :=
    List.mem_filter.2 ⟨ht, by simpa using hts⟩
  obtain ⟨l1, l2, hsplit, hnotin⟩ := exists_first_split htf
  rw [hsplit]
  simp only [List.map_append, List.map_cons]
  have hA : ∀ q ∈ l1.map (fun v => [v, s]), q.head? ≠ some t := by
    intro q hq
    obtain ⟨v, hv, rfl⟩ := List.mem_map.1 hq
    have hvt : v ≠ t := fun h => hnotin (h ▸ hv)
    simpa using hvt
  have hlen : (l1.map (fun v => [v, s])).length < 2 * edges.length + n + 1 := by
    rw [List.length_map]
    have h1 : l1.length < ((nbrs edges s).filter (fun v => decide (v ∉ [s]))).length := by
      rw [hsplit]
      simp only [List.length_append, List.length_cons]
      omega
    have h2 : ((nbrs edges s).filter (fun v => decide (v ∉ [s]))).length ≤
        (nbrs edges s).length := List.length_filter_le _ _
    have h3 := nbrs_length_le edges s
    omega
  have hres := bfsAux_firstHit (nbrs edges) t (l1.map (fun v => [v, s]))
    (2 * edges.length + n + 1) [t, s] (l2.map (fun v => [v, s]))
    ([s] ++ (nbrs edges s).filter (fun v => decide (v ∉ [s]))) hA (by simp) hlen
  rw [hsplit] at hres
  simpa using hres

/-- Every element of pairPaths arises from a successful tryPath. -/
theorem pairPaths_mem (G : GraphView) :
    ∀ (l : List ℕ) (e : VPath), e ∈ pairPaths G l →
      ∃ n1 n2, tryPath G n1 n2 = some e := by
  intro l
  induction l with
  | nil =>
    intro e h
    exact absurd h (List.not_mem_nil _)
  | cons n1 rest ih =>
    intro e h
    rw [pairPaths] at h
    rcases List.mem_append.1 h with h1 | h1
    · obtain ⟨n2, _, hn2⟩ := List.mem_filterMap.1 h1
      exact ⟨n1, n2, hn2⟩
    · exact ih e h1

/-- Fewer than two candidate nodes yield no pairs. -/
theorem pairPaths_short (G : GraphView) (l : List ℕ) (h : l.length ≤ 1) :
    pairPaths G l = [] := by
  cases l with
  | nil => rfl
  | cons a t =>
    cases t with
    | nil => rfl
    | cons b t2 => simp at h

/-- Inversion of the inner-loop body: a produced record came from a found
shortest path of more than two nodes, packaged with its endpoints. -/
theorem tryPath_eq_some (G : GraphView) (n1 n2 : ℕ) (e : VPath)
    (h : tryPath G n1 n2 = some e) :
    ∃ p, shortestPath G.edges G.numNodes n1 n2 = some p ∧ 2 < p.length ∧
      e = ⟨p, p.length, n1, n2⟩ := by
  rw [tryPath] at h
  rcases hsp : shortestPath G.edges G.numNodes n1 n2 with _ | p
  · simp only [hsp] at h
    exact Option.noConfusion h
  · simp only [hsp] at h
    by_cases hlen : 2 < p.length
    · rw [if_pos hlen] at h
      exact ⟨p, rfl, hlen, (Option.some_inj.1 h).symm⟩
    · rw [if_neg hlen] at h
      exact Option.noConfusion h

/-! ## Claim C8 -/

/-- Claim C8: for every input node list and every topK, find_vulnerable_paths
returns at most topK records, ordered by ascending length, and every
returned record carries an actual connecting path in the current topology:
its node sequence starts at the record's source, ends at its target, and
every consecutive pair is joined by an edge; pairs without a path are
excluded (they produce no record) rather than raising an error — the
function is total. -/
theorem C8_found_paths_valid (G : GraphView) (ns : List ℕ) (k : ℕ) :
    (find_vulnerable_paths G ns k).length ≤ k ∧
    List.Pairwise vpathLE (find_vulnerable_paths G ns k) ∧
    (∀ e ∈ find_vulnerable_paths G ns k,
      e.path.head? = some e.source ∧ e.path.getLast? = some e.target ∧
      List.Chain' (fun a b => b ∈ nbrs G.edges a) e.path) := by
  rw [find_vulnerable_paths]
  by_cases hg : ns.length < 2
  · rw [if_pos hg]
    exact ⟨Nat.zero_le k, List.Pairwise.nil, fun e he => absurd he (List.not_mem_nil _)⟩
  · rw [if_neg hg]
    refine ⟨?_, ?_, ?_⟩
    · rw [List.length_take]
      exact min_le_left _ _
    · exact List.Pairwise.sublist (List.take_sublist _ _)
        (List.sorted_insertionSort vpathLE _)
    · intro e he
      have hmem2 : e ∈ pairPaths G (ns.take k) :=
        ((List.perm_insertionSort vpathLE _).mem_iff).1 (List.take_subset _ _ he)
      obtain ⟨n1, n2, htry⟩ := pairPaths_mem G _ e hmem2
      obtain ⟨p, hsp, hplen, rfl⟩ := tryPath_eq_some G n1 n2 e htry
      rw [shortestPath] at hsp
      have hsound := bfsAux_sound (nbrs G.edges) n1 n2
        (2 * G.edges.length + G.numNodes + 2) [[n1]] [n1] p ?_ hsp
      · exact ⟨hsound.1, hsound.2.1, hsound.2.2⟩
      · intro q hq
        have hq1 : q = [n1] := by simpa using hq
        subst hq1
        exact ⟨rfl, List.chain'_singleton _⟩

/-- Witness for C8 on the path graph 0 - 1 - 2 - 3 with anomalous nodes 0 and
3: the single returned record carries the real connecting path. -/
theorem C8_witness :
    (find_vulnerable_paths ⟨4, [(0, 1), (1, 2), (2, 3)]⟩ [0, 3] 5).length ≤ 5 ∧
    ([0, 1, 2, 3] : List ℕ).head? = some 0 ∧
    ([0, 1, 2, 3] : List ℕ).getLast? = some 3 ∧
    List.Chain' (fun a b => b ∈ nbrs [(0, 1), (1, 2), (2, 3)] a) [0, 1, 2, 3] := by
  have h := C8_found_paths_valid ⟨4, [(0, 1), (1, 2), (2, 3)]⟩ [0, 3] 5
  have hmem : (⟨[0, 1, 2, 3], 4, 0, 3⟩ : VPath) ∈
      find_vulnerable_paths ⟨4, [(0, 1), (1, 2), (2, 3)]⟩ [0, 3] 5 := by decide
  exact ⟨h.1, (h.2.2 _ hmem).1, (h.2.2 _ hmem).2.1, (h.2.2 _ hmem).2.2⟩

/-! ## Claim C10 -/

/-- Claim C10: find_vulnerable_paths examines only pairs drawn from the first
topK entries of its input list — the result is unchanged when the input is
truncated to its first topK entries — and every returned record has a path
of more than two nodes, so in particular two nodes joined by a direct edge
(whose shortest path has exactly two nodes) never appear as a returned
pair. -/
theorem C10_pair_scope_and_no_direct_edges (G : GraphView) (ns : List ℕ) (k : ℕ) :
    find_vulnerable_paths G ns k = find_vulnerable_paths G (ns.take k) k ∧
    (∀ e ∈ find_vulnerable_paths G ns k,
      2 < e.path.length ∧ e.length = e.path.length ∧
      e.target ∉ nbrs G.edges e.source) := by
  constructor
  · rw [find_vulnerable_paths, find_vulnerable_paths, List.take_take, min_self]
    by_cases h1 : ns.length < 2
    · have h2 : (ns.take k).length < 2 := by
        rw [List.length_take]
        omega
      rw [if_pos h1, if_pos h2]
    · by_cases h2 : (ns.take k).length < 2
      · rw [if_neg h1, if_pos h2,
          pairPaths_short G _ (by omega : (ns.take k).length ≤ 1)]
        rw [show List.insertionSort vpathLE ([] : List VPath) = [] from rfl, List.take_nil]
      · rw [if_neg h1, if_neg h2]
  · intro e he
    rw [find_vulnerable_paths] at he
    by_cases h1 : ns.length < 2
    · rw [if_pos h1] at he
      exact absurd he (List.not_mem_nil _)
    · rw [if_neg h1] at he
      have hmem2 : e ∈ pairPaths G (ns.take k) :=
        ((List.perm_insertionSort vpathLE _).mem_iff).1 (List.take_subset _ _ he)
      obtain ⟨n1, n2, htry⟩ := pairPaths_mem G _ e hmem2
      obtain ⟨p, hsp, hplen, rfl⟩ := tryPath_eq_some G n1 n2 e htry
      refine ⟨hplen, rfl, ?_⟩
      intro hadj
      by_cases hne : n1 = n2
      · subst hne
        rw [shortestPath_self] at hsp
        have hp : [n1] = p := Option.some_inj.1 hsp
        rw [← hp] at hplen
        simp at hplen
      · rw [shortestPath_adjacent G.edges G.numNodes n1 n2 hne hadj] at hsp
        have hp : [n1, n2] = p := Option.some_inj.1 hsp
        rw [← hp] at hplen
        simp at hplen

/-- Witness for C10 on the path graph 0 - 1 - 2 - 3: appending a third
anomalous node beyond topK = 2 leaves the result unchanged, the returned
record's path has more than two nodes, and its endpoints are not directly
adjacent. -/
theorem C10_witness :
    find_vulnerable_paths ⟨4, [(0, 1), (1, 2), (2, 3)]⟩ [0, 3, 1] 2 =
      find_vulnerable_paths ⟨4, [(0, 1), (1, 2), (2, 3)]⟩ [0, 3] 2 ∧
    2 < ([0, 1, 2, 3] : List ℕ).length ∧
    (3 : ℕ) ∉ nbrs [(0, 1), (1, 2), (2, 3)] 0 := by
  have h := C10_pair_scope_and_no_direct_edges ⟨4, [(0, 1), (1, 2), (2, 3)]⟩ [0, 3, 1] 2
  have hmem : (⟨[0, 1, 2, 3], 4, 0, 3⟩ : VPath) ∈
      find_vulnerable_paths ⟨4, [(0, 1), (1, 2), (2, 3)]⟩ [0, 3, 1] 2 := by decide
  have h2 := h.2 _ hmem
  exact ⟨by simpa using h.1, h2.1, h2.2.2⟩

end Trinetra
